import Mathlib

/-!
Verification of the TileDB-ML batch-generation / shuffling / partitioning core
(`tiledb/ml/readers/pytorch.py` and `tiledb/ml/readers/_tensor_gen.py`).

The Python source is shallowly embedded: machine-level tensors become Lean
lists, the external array store's `read` primitive becomes a function from row
indices to row contents, Python generators become functions producing lists,
and raised exceptions become `Except` error values.  Randomness in the shuffle
buffer (`random.randrange`, `random.shuffle`) is modelled by explicit
parameters: a stream `picks : ℕ → ℕ` of random draws (reduced modulo the
buffer size, exactly the value set produced by `randrange(0, buffer_size)`)
and an arbitrary permutation-producing function `shuffle`.

Components of the repository whose defining module is not part of the source
tree (`_tensor_schema.py`, `_batch_utils.py`) are modelled from the
specification; each such definition carries a doc comment starting with
`Modelled from the spec:`.
-/

namespace TileDBML

universe u v

variable {α : Type u} {β : Type v}

/-! ## Shuffle buffer (`_iter_shuffled`, pytorch.py lines 195-212) -/

/-- The `for x in iterator` loop of `_iter_shuffled`: given the pre-filled
`buffer` and the remaining input `rest`, repeatedly draw a slot index
`idx = picks i % bufSize` (the value set of `random.randrange(0, buffer_size)`),
emit `buffer[idx]`, and overwrite that slot with the incoming element.
Returns the emitted elements together with the final buffer contents.
Whenever the loop body runs the buffer holds exactly `bufSize` elements, so
the `getD` default is never consulted in reachable states. -/
def shuffleLoop (picks : ℕ → ℕ) (bufSize : ℕ) : ℕ → List α → List α → List α × List α
  | _, buffer, [] => ([], buffer)
  | i, buffer, x :: rest =>
    let idx := picks i % bufSize
    let out := buffer.getD idx x
    let r := shuffleLoop picks bufSize (i + 1) (buffer.set idx x) rest
    (out :: r.1, r.2)

/-- `_iter_shuffled(iterable, buffer_size)`: pre-fill a buffer with the first
`buffer_size` elements (`itertools.islice`), run the reservoir loop over the
rest, then `random.shuffle` the remaining buffer and drain it from the end
(`buffer.pop()` yields the shuffled buffer in reverse). -/
def iterShuffled (input : List α) (bufSize : ℕ) (picks : ℕ → ℕ)
    (shuffle : List α → List α) : List α :=
  let buffer := input.take bufSize
  let r := shuffleLoop picks bufSize 0 buffer (input.drop bufSize)
  r.1 ++ (shuffle r.2).reverse

theorem cons_middle_swap_perm (a b : α) (l₁ l₂ : List α) :
    List.Perm (a :: (l₁ ++ b :: l₂)) (b :: (l₁ ++ a :: l₂)) :=
  ((List.perm_middle.cons a).trans (List.Perm.swap b a (l₁ ++ l₂))).trans
    (List.perm_middle.symm.cons b)

theorem getD_set_perm (buffer : List α) (idx : ℕ) (x : α) :
    List.Perm (buffer.getD idx x :: buffer.set idx x) (x :: buffer) := by
  by_cases h : idx < buffer.length
  · rw [buffer.getD_eq_getElem x h, List.set_eq_take_cons_drop x h]
    conv_rhs =>
      rw [← List.take_append_drop idx buffer, ← List.getElem_cons_drop buffer idx h]
    exact cons_middle_swap_perm _ _ _ _
  · rw [List.getD_eq_default _ _ (le_of_not_lt h),
      List.set_eq_of_length_le (le_of_not_lt h)]

theorem shuffleLoop_perm (picks : ℕ → ℕ) (bufSize : ℕ) (rest : List α) :
    ∀ (i : ℕ) (buffer : List α),
      List.Perm ((shuffleLoop picks bufSize i buffer rest).1 ++
          (shuffleLoop picks bufSize i buffer rest).2)
        (buffer ++ rest) := by
  induction rest with
  | nil => intro i buffer; simp [shuffleLoop]
  | cons x rest ih =>
    intro i buffer
    simp only [shuffleLoop, List.cons_append]
    refine List.Perm.trans (List.Perm.cons _ (ih (i + 1) _)) ?_
    refine List.Perm.trans ?_ List.perm_middle.symm
    show List.Perm ((_ :: _) ++ rest) ((x :: buffer) ++ rest)
    exact List.Perm.append_right rest (getD_set_perm buffer _ x)

/-- C1: for every finite input and every `buffer_size ≥ 1`, the output of the
shuffle buffer `_iter_shuffled` is a permutation of the input: same length,
same multiset, every input element emitted exactly once (equal counts). -/
theorem shuffled_perm_of_input [DecidableEq α] (input : List α) (bufSize : ℕ)
    (picks : ℕ → ℕ) (shuffle : List α → List α) (hbuf : 1 ≤ bufSize)
    (hshuffle : ∀ l : List α, List.Perm (shuffle l) l) :
    List.Perm (iterShuffled input bufSize picks shuffle) input ∧
    (iterShuffled input bufSize picks shuffle).length = input.length ∧
    ∀ a : α, (iterShuffled input bufSize picks shuffle).count a = input.count a := by
  have hperm : List.Perm (iterShuffled input bufSize picks shuffle) input := by
    unfold iterShuffled
    refine List.Perm.trans (List.Perm.append_left _ ?_)
      (List.Perm.trans (shuffleLoop_perm picks bufSize (input.drop bufSize) 0
        (input.take bufSize)) ?_)
    · exact ((shuffle _).reverse_perm).trans (hshuffle _)
    · rw [List.take_append_drop]
  exact ⟨hperm, hperm.length_eq, fun a => hperm.count_eq a⟩

theorem shuffled_perm_of_input_witness :
    List.Perm (iterShuffled [0, 1, 2, 3] 2 id id) [0, 1, 2, 3] ∧
    (iterShuffled [0, 1, 2, 3] 2 id id).length = ([0, 1, 2, 3] : List ℕ).length ∧
    ∀ a : ℕ, (iterShuffled [0, 1, 2, 3] 2 id id).count a = [0, 1, 2, 3].count a :=
  shuffled_perm_of_input [0, 1, 2, 3] 2 id id (by decide) (fun l => List.Perm.refl l)

theorem shuffleLoop_bufOne (picks : ℕ → ℕ) (rest : List α) :
    ∀ (i : ℕ) (b : α),
      (shuffleLoop picks 1 i [b] rest).1 ++ (shuffleLoop picks 1 i [b] rest).2 =
          b :: rest ∧
      (shuffleLoop picks 1 i [b] rest).2.length = 1 := by
  induction rest with
  | nil => intro i b; simp [shuffleLoop]
  | cons x rest ih =>
    intro i b
    have h := ih (i + 1) x
    simp only [shuffleLoop, Nat.mod_one, List.getD_cons_zero, List.set_cons_zero,
      List.cons_append, h.2, and_true]
    rw [h.1]

/-- C8: with `buffer_size == 1` the shuffle buffer is the identity transform:
the output order equals the input order exactly. -/
theorem shuffled_bufOne_id (input : List α) (picks : ℕ → ℕ)
    (shuffle : List α → List α)
    (hshuffle : ∀ l : List α, List.Perm (shuffle l) l) :
    iterShuffled input 1 picks shuffle = input := by
  cases input with
  | nil =>
    have h0 : shuffle ([] : List α) = [] := (hshuffle []).eq_nil
    simp [iterShuffled, shuffleLoop, h0]
  | cons a t =>
    obtain ⟨h1, h2⟩ := shuffleLoop_bufOne picks t 0 a
    obtain ⟨c, hc⟩ := List.length_eq_one.mp h2
    have hsc : shuffle [c] = [c] := List.perm_singleton.mp (hshuffle [c])
    simp only [iterShuffled, List.take_succ_cons, List.take_zero,
      List.drop_succ_cons, List.drop_zero]
    rw [hc] at h1 ⊢
    rw [hsc, List.reverse_singleton, h1]

theorem shuffled_bufOne_id_witness :
    iterShuffled [5, 6, 7] 1 id id = ([5, 6, 7] : List ℕ) :=
  shuffled_bufOne_id [5, 6, 7] id id (fun l => List.Perm.refl l)

/-! ## Key ranges and partitioning (`_tensor_schema.py`, modelled from the spec) -/

/-- Modelled from the spec: a `KeyRange` over integer row keys is a contiguous
span, start inclusive, stop exclusive (spec section 3; the defining module
`_tensor_schema.py` is not part of the source tree). -/
structure KeyRange where
  start : ℕ
  stop : ℕ
  deriving DecidableEq

/-- The set of keys a `KeyRange` denotes. -/
def KeyRange.keySet (r : KeyRange) : Set ℕ := Set.Ico r.start r.stop

/-- Modelled from the spec: `KeyRange.equal_values(other)` is true iff both
ranges denote the same key set; for contiguous integer ranges this is equality
of the endpoints (spec section 4.1). -/
def KeyRange.equal_values (r s : KeyRange) : Bool := r.start == s.start && r.stop == s.stop

theorem equal_values_iff_keySet (r s : KeyRange) (hr : r.start < r.stop) :
    KeyRange.equal_values r s = true ↔ r.keySet = s.keySet := by
  unfold KeyRange.equal_values KeyRange.keySet
  rw [Bool.and_eq_true, beq_iff_eq, beq_iff_eq]
  constructor
  · rintro ⟨h1, h2⟩; rw [h1, h2]
  · intro h
    have hmem : r.start ∈ Set.Ico s.start s.stop := by
      rw [← h]; exact ⟨le_refl _, hr⟩
    rw [Set.Ico_eq_Ico_iff] at h
    · exact h
    · exact Or.inl hr

/-- Modelled from the spec: `KeyRange.partition_by_weight(weight)` splits the
range into the minimum number of contiguous subranges of size at most `weight`,
emitted in key order, whose concatenation reconstructs the range (spec section
4.1).  The recursion is fuelled by the range size; with `weight ≥ 1` the fuel
is never exhausted. -/
def partitionByWeightAux (w : ℕ) : ℕ → ℕ → ℕ → List KeyRange
  | 0, _, _ => []
  | fuel + 1, start, stop =>
    if start < stop then
      ⟨start, min (start + w) stop⟩ :: partitionByWeightAux w fuel (min (start + w) stop) stop
    else []

/-- Modelled from the spec: see `partitionByWeightAux`. -/
def KeyRange.partitionByWeight (r : KeyRange) (w : ℕ) : List KeyRange :=
  partitionByWeightAux w (r.stop - r.start) r.start r.stop

/-! ## Dense row generation (`_iter_rows`, pytorch.py lines 94-101, with
`TileDBNumpyGenerator.iter_tensors`, _tensor_gen.py lines 25-40) -/

/-- The external array store's read primitive over a dense array, restricted to
one attribute: reading the row span `[start, stop)` returns the rows in key
order.  `arr` maps a key to the contents of its row (spec section 6). -/
def denseRead (arr : ℕ → List α) (start stop : ℕ) : List (List α) :=
  (List.range (stop - start)).map (fun i => arr (start + i))

/-- Modelled from the spec: `DenseTensorSchema.iter_tensors(key_subranges)` for
a single-attribute schema issues one read per subrange, in input order, and
emits each buffer unchanged; with `num_fields == 1` each batch is a bare tensor
of shape `(k, *row_shape)` (spec sections 4.2 and 4.3).  A batch tensor is
modelled as the list of its rows. -/
def denseIterTensors (arr : ℕ → List α) (subranges : List KeyRange) :
    List (List (List α)) :=
  subranges.map (fun r => denseRead arr r.start r.stop)

/-- `_PyTorchTileDBDataset._iter_rows` for one dense single-attribute schema:
partition the dataset's key range at `max_partition_weight` granularity,
request `iter_tensors` over the subranges, and flatten every batch along its
leading axis into individual rows (`num_fields == 1` branch). -/
def iterRowsDense (arr : ℕ → List α) (keyRange : KeyRange) (maxWeight : ℕ) :
    List (List α) :=
  (denseIterTensors arr (keyRange.partitionByWeight maxWeight)).flatten

/-- `_PyTorchTileDBDataset.__iter__` for one dense single-attribute schema:
the row stream, wrapped in the shuffle buffer only when
`shuffle_buffer_size > 0`. -/
def datasetIterDense (arr : ℕ → List α) (keyRange : KeyRange)
    (maxWeight bufSize : ℕ) (picks : ℕ → ℕ)
    (shuffle : List (List α) → List (List α)) : List (List α) :=
  let rows := iterRowsDense arr keyRange maxWeight
  if 0 < bufSize then iterShuffled rows bufSize picks shuffle else rows

theorem denseRead_append (arr : ℕ → List α) (a m b : ℕ) (ham : a ≤ m) (hmb : m ≤ b) :
    denseRead arr a m ++ denseRead arr m b = denseRead arr a b := by
  unfold denseRead
  have hb : b - a = (m - a) + (b - m) := by omega
  rw [hb, List.range_add, List.map_append, List.map_map]
  congr 1
  apply List.map_congr_left
  intro i _
  simp only [Function.comp_apply]
  congr 1
  omega

theorem partitionByWeightAux_join (arr : ℕ → List α) (w : ℕ) (hw : 1 ≤ w) :
    ∀ (fuel start stop : ℕ), stop - start ≤ fuel →
      ((partitionByWeightAux w fuel start stop).map
          (fun r => denseRead arr r.start r.stop)).flatten = denseRead arr start stop := by
  intro fuel
  induction fuel with
  | zero =>
    intro start stop h
    have : stop - start = 0 := by omega
    simp [partitionByWeightAux, denseRead, this]
  | succ fuel ih =>
    intro start stop h
    by_cases hlt : start < stop
    · have hrec := ih (min (start + w) stop) stop (by omega)
      simp only [partitionByWeightAux, if_pos hlt, List.map_cons, List.flatten_cons, hrec]
      exact denseRead_append arr start _ stop (by omega) (by omega)
    · have : stop - start = 0 := by omega
      simp [partitionByWeightAux, if_neg hlt, denseRead, this]

/-- C2: for a single dense schema over the key range `[0, 1000)` with per-row
shape `(10,)` and shuffling disabled, iterating the dataset emits exactly 1000
rows, in original key order, each of shape `(10,)`: the row generator requests
`iter_tensors` over the full range split at `max_partition_weight` granularity
and flattens every batch along its leading axis, one row per key (the
`num_fields == 1` case, where a row is a bare tensor). -/
theorem dense_dataset_iter_rows (arr : ℕ → List α) (w : ℕ) (hw : 1 ≤ w)
    (hshape : ∀ i, (arr i).length = 10) (picks : ℕ → ℕ)
    (shuffle : List (List α) → List (List α)) :
    datasetIterDense arr ⟨0, 1000⟩ w 0 picks shuffle = (List.range 1000).map arr ∧
    (datasetIterDense arr ⟨0, 1000⟩ w 0 picks shuffle).length = 1000 ∧
    ∀ row ∈ datasetIterDense arr ⟨0, 1000⟩ w 0 picks shuffle, row.length = 10 := by
  have heq : datasetIterDense arr ⟨0, 1000⟩ w 0 picks shuffle = (List.range 1000).map arr := by
    unfold datasetIterDense
    simp only [lt_irrefl, if_neg (lt_irrefl 0)]
    unfold iterRowsDense denseIterTensors KeyRange.partitionByWeight
    rw [partitionByWeightAux_join arr w hw (1000 - 0) 0 1000 (le_refl _)]
    simp [denseRead]
  refine ⟨heq, ?_, ?_⟩
  · rw [heq, List.length_map, List.length_range]
  · intro row hrow
    rw [heq] at hrow
    obtain ⟨i, _, rfl⟩ := List.mem_map.mp hrow
    exact hshape i

theorem dense_dataset_iter_rows_witness :
    datasetIterDense (fun _ => List.replicate 10 0) ⟨0, 1000⟩ 32 0 id id =
        (List.range 1000).map (fun _ => List.replicate 10 (0 : ℕ)) ∧
    (datasetIterDense (fun _ => List.replicate 10 (0 : ℕ)) ⟨0, 1000⟩ 32 0 id id).length = 1000 ∧
    ∀ row ∈ datasetIterDense (fun _ => List.replicate 10 (0 : ℕ)) ⟨0, 1000⟩ 32 0 id id,
      row.length = 10 :=
  dense_dataset_iter_rows (fun _ => List.replicate 10 0) 32 (by decide)
    (fun _ => List.length_replicate 10 0) id id

/-! ## Dataset construction (`_PyTorchTileDBDataset.__init__`, pytorch.py
lines 77-84) -/

/-- A tensor schema as far as the dataset constructor and the worker
initializer inspect it: its key range and whether it is sparse
(`isinstance(schema, SparseTensorSchema)`). -/
structure Schema where
  keyRange : KeyRange
  sparse : Bool
  deriving DecidableEq

inductive DatasetError
  | indexError
  | valueError
  deriving DecidableEq

structure Dataset where
  schemas : List Schema
  keyRange : KeyRange
  shuffleBufferSize : ℕ
  deriving DecidableEq

/-- `_PyTorchTileDBDataset.__init__(schemas, shuffle_buffer_size)`: take the
first schema's key range (`schemas[0]` raises IndexError on an empty sequence),
raise ValueError unless every other schema's key range has equal values, and
otherwise store the schemas, the common key range, and the shuffle buffer
size.  No read is issued: construction only compares key ranges. -/
def datasetInit : List Schema → ℕ → Except DatasetError Dataset
  | [], _ => Except.error DatasetError.indexError
  | s0 :: rest, shuffleBufferSize =>
    if rest.all (fun s => s0.keyRange.equal_values s.keyRange) then
      Except.ok ⟨s0 :: rest, s0.keyRange, shuffleBufferSize⟩
    else Except.error DatasetError.valueError

/-- C3: for two or more schemas, construction fails with ValueError as soon as
any schema's key range differs (as a key set) from the first schema's, before
any read; when all key ranges agree, construction succeeds and the dataset's
key range is the common range. -/
theorem dataset_init_key_range_check (s0 : Schema) (rest : List Schema)
    (bufSize : ℕ) (hne : rest ≠ [])
    (h0 : s0.keyRange.start < s0.keyRange.stop) :
    ((∃ s ∈ rest, s.keyRange.keySet ≠ s0.keyRange.keySet) →
        datasetInit (s0 :: rest) bufSize = Except.error DatasetError.valueError) ∧
    ((∀ s ∈ rest, s.keyRange.keySet = s0.keyRange.keySet) →
        datasetInit (s0 :: rest) bufSize =
          Except.ok ⟨s0 :: rest, s0.keyRange, bufSize⟩) := by
  constructor
  · rintro ⟨s, hs, hsne⟩
    simp only [datasetInit]
    rw [if_neg]
    intro hall
    rw [List.all_eq_true] at hall
    exact hsne ((equal_values_iff_keySet s0.keyRange s.keyRange h0).mp (hall s hs)).symm
  · intro hall
    simp only [datasetInit]
    rw [if_pos]
    rw [List.all_eq_true]
    intro s hs
    exact (equal_values_iff_keySet s0.keyRange s.keyRange h0).mpr (hall s hs).symm

theorem dataset_init_key_range_check_witness :
    datasetInit [⟨⟨0, 5⟩, false⟩, ⟨⟨0, 5⟩, true⟩] 0 =
      Except.ok ⟨[⟨⟨0, 5⟩, false⟩, ⟨⟨0, 5⟩, true⟩], ⟨0, 5⟩, 0⟩ :=
  (dataset_init_key_range_check ⟨⟨0, 5⟩, false⟩ [⟨⟨0, 5⟩, true⟩] 0 (by decide)
    (by decide)).2 (by
      intro s hs
      rw [List.mem_singleton] at hs
      subst hs
      rfl)

/-! ## Worker initialization (`_worker_init`, pytorch.py lines 104-110) -/

/-- Modelled from the spec: `KeyRange.partition_by_count(n)` splits the range
into exactly `min(n, range_size)` contiguous, non-overlapping subranges, as
evenly as possible, covering the whole range in key order (spec section 4.1;
the defining module `_tensor_schema.py` is not part of the source tree). -/
def KeyRange.partitionByCount (r : KeyRange) (n : ℕ) : List KeyRange :=
  let size := r.stop - r.start
  let k := min n size
  (List.range k).map (fun i => ⟨r.start + size * i / k, r.start + size * (i + 1) / k⟩)

inductive WorkerError
  | notImplemented
  | indexError
  deriving DecidableEq

/-- `_worker_init(worker_id)`: raise NotImplementedError when any schema of the
worker's dataset is sparse (before any partitioning); otherwise list
`key_range.partition_by_count(num_workers)` and rebind the dataset's key range
to `key_ranges[worker_id]` (Python list indexing raises IndexError when the
index is out of range). -/
def workerInit (ds : Dataset) (workerId numWorkers : ℕ) : Except WorkerError Dataset :=
  if ds.schemas.any (fun s => s.sparse) then Except.error WorkerError.notImplemented
  else
    let keyRanges := ds.keyRange.partitionByCount numWorkers
    if h : workerId < keyRanges.length then
      Except.ok { ds with keyRange := keyRanges.get ⟨workerId, h⟩ }
    else Except.error WorkerError.indexError

theorem partitionByCount_length (r : KeyRange) (n : ℕ) :
    (r.partitionByCount n).length = min n (r.stop - r.start) := by
  unfold KeyRange.partitionByCount
  rw [List.length_map, List.length_range]

/-- C9: worker initialization indexes the list returned by
`partition_by_count(num_workers)` directly by worker ordinal: for a dense-only
dataset whose key range has fewer keys than `num_workers`, the partition list
is shorter than `num_workers`, and any worker whose id is at least its length
fails with an out-of-range indexing error instead of getting an empty range. -/
theorem worker_init_index_out_of_range (ds : Dataset) (workerId numWorkers : ℕ)
    (hdense : ∀ s ∈ ds.schemas, s.sparse = false)
    (hpos : 0 < ds.keyRange.stop - ds.keyRange.start)
    (hfew : ds.keyRange.stop - ds.keyRange.start < numWorkers)
    (hid : (ds.keyRange.partitionByCount numWorkers).length ≤ workerId) :
    (ds.keyRange.partitionByCount numWorkers).length < numWorkers ∧
    workerInit ds workerId numWorkers = Except.error WorkerError.indexError := by
  have hlen : (ds.keyRange.partitionByCount numWorkers).length =
      ds.keyRange.stop - ds.keyRange.start := by
    rw [partitionByCount_length]; omega
  have hany : ds.schemas.any (fun s => s.sparse) = false := by
    rw [List.any_eq_false]
    intro s hs
    simp [hdense s hs]
  refine ⟨by omega, ?_⟩
  unfold workerInit
  rw [if_neg (by simp [hany]), dif_neg (by omega)]

theorem worker_init_index_out_of_range_witness :
    ((KeyRange.mk 0 1).partitionByCount 3).length < 3 ∧
    workerInit ⟨[⟨⟨0, 1⟩, false⟩], ⟨0, 1⟩, 0⟩ 2 3 =
      Except.error WorkerError.indexError :=
  worker_init_index_out_of_range ⟨[⟨⟨0, 1⟩, false⟩], ⟨0, 1⟩, 0⟩ 2 3
    (by decide) (by decide) (by decide) (by decide)

/-- C5 counterexample: a dataset of only dense schemas for which worker
initialization does not succeed — one key, two workers, worker id 1 — refuting
the unconditional success of worker initialization for dense datasets. -/
theorem worker_init_dense_counterexample :
    (∀ s ∈ ([⟨⟨0, 1⟩, false⟩] : List Schema), s.sparse = false) ∧
    workerInit ⟨[⟨⟨0, 1⟩, false⟩], ⟨0, 1⟩, 0⟩ 1 2 =
      Except.error WorkerError.indexError := by
  exact ⟨by decide, rfl⟩

/-- C5 (amended): a dataset with any sparse schema fails fast with
NotImplementedError before any partitioning; a dataset of only dense schemas
succeeds and is assigned `partition_by_count(num_workers)[worker_id]` whenever
the worker id is within the partition list (whose length is
`min(num_workers, range size)`). -/
theorem worker_init_amended (ds : Dataset) (workerId numWorkers : ℕ) :
    ((∃ s ∈ ds.schemas, s.sparse = true) →
        workerInit ds workerId numWorkers =
          Except.error WorkerError.notImplemented) ∧
    ((∀ s ∈ ds.schemas, s.sparse = false) →
        ∀ h : workerId < (ds.keyRange.partitionByCount numWorkers).length,
          workerInit ds workerId numWorkers =
            Except.ok { ds with
              keyRange := (ds.keyRange.partitionByCount numWorkers).get
                ⟨workerId, h⟩ }) := by
  constructor
  · rintro ⟨s, hs, hsp⟩
    have hany : ds.schemas.any (fun s => s.sparse) = true :=
      List.any_eq_true.mpr ⟨s, hs, hsp⟩
    unfold workerInit
    rw [if_pos (by simp [hany])]
  · intro hdense h
    have hany : ds.schemas.any (fun s => s.sparse) = false := by
      rw [List.any_eq_false]
      intro s hs
      simp [hdense s hs]
    unfold workerInit
    rw [if_neg (by simp [hany])]
    exact dif_pos h

theorem worker_init_amended_witness :
    workerInit ⟨[⟨⟨0, 10⟩, true⟩], ⟨0, 10⟩, 0⟩ 0 2 =
      Except.error WorkerError.notImplemented ∧
    workerInit ⟨[⟨⟨0, 10⟩, false⟩], ⟨0, 10⟩, 0⟩ 0 2 =
      Except.ok ⟨[⟨⟨0, 10⟩, false⟩], ⟨0, 5⟩, 0⟩ := by
  constructor
  · exact (worker_init_amended ⟨[⟨⟨0, 10⟩, true⟩], ⟨0, 10⟩, 0⟩ 0 2).1
      ⟨_, List.mem_singleton_self _, rfl⟩
  · exact ((worker_init_amended ⟨[⟨⟨0, 10⟩, false⟩], ⟨0, 10⟩, 0⟩ 0 2).2
      (by decide) (by decide)).trans rfl

/-! ## Sparse slice tensors (`TileDBSparseTensorGenerator.iter_tensors`,
_tensor_gen.py lines 52-77) -/

/-- A `sparse.COO` tensor as constructed by `_tensor_gen.py`: one coordinate
array per dimension, the value buffer, and the shape. -/
structure SparseCOO (α : Type u) where
  coords : List (List ℕ)
  data : List α
  shape : List ℕ
  deriving DecidableEq

/-- The body of `TileDBSparseTensorGenerator.iter_tensors` for one read slice
(_tensor_gen.py lines 66-77): the per-dimension coordinate arrays are popped
from the read buffer in dimension order, the slice's start offset is
subtracted from the leading-dimension coordinates when it is nonzero
(`if start: coords[0] -= start`), and one `sparse.COO` is yielded per
attribute from the shared coordinate arrays, that attribute's value buffer,
and shape `(read_slice.stop - start, *row_shape)`. -/
def sparseSliceTensors (rowShape : List ℕ) (sliceStart sliceStop : ℕ)
    (dimCoords : List (List ℕ)) (attrVals : List (List α)) : List (SparseCOO α) :=
  let coords :=
    if sliceStart ≠ 0 then
      match dimCoords with
      | [] => []
      | c0 :: rest => c0.map (fun x => x - sliceStart) :: rest
    else dimCoords
  attrVals.map (fun data => ⟨coords, data, (sliceStop - sliceStart) :: rowShape⟩)

/-- C4: for every sparse slice read, the generator subtracts the slice's start
offset from the leading-dimension coordinate array (and only from that
dimension), yielding one coordinate tensor per attribute built from the shared
normalized coordinates, that attribute's value buffer, and shape
`(subrange_size, *row_shape)` with `subrange_size = stop - start`; the
normalized leading coordinates are zero-based within the slice. -/
theorem sparse_slice_tensors_normalized (rowShape : List ℕ)
    (sliceStart sliceStop : ℕ) (c0 : List ℕ) (dimRest : List (List ℕ))
    (attrVals : List (List α))
    (hbound : ∀ x ∈ c0, sliceStart ≤ x ∧ x < sliceStop) :
    sparseSliceTensors rowShape sliceStart sliceStop (c0 :: dimRest) attrVals =
      attrVals.map (fun data =>
        ⟨(c0.map (fun x => x - sliceStart)) :: dimRest, data,
          (sliceStop - sliceStart) :: rowShape⟩) ∧
    ∀ t ∈ sparseSliceTensors rowShape sliceStart sliceStop (c0 :: dimRest) attrVals,
      t.shape = (sliceStop - sliceStart) :: rowShape ∧
      ∀ x ∈ t.coords.headD [], x < sliceStop - sliceStart := by
  have heq : sparseSliceTensors rowShape sliceStart sliceStop (c0 :: dimRest) attrVals =
      attrVals.map (fun data =>
        ⟨(c0.map (fun x => x - sliceStart)) :: dimRest, data,
          (sliceStop - sliceStart) :: rowShape⟩) := by
    by_cases h0 : sliceStart = 0
    · subst h0
      simp [sparseSliceTensors]
    · simp [sparseSliceTensors, h0]
  refine ⟨heq, ?_⟩
  intro t ht
  rw [heq] at ht
  obtain ⟨data, _, rfl⟩ := List.mem_map.mp ht
  refine ⟨rfl, ?_⟩
  intro x hx
  simp only [List.headD_cons] at hx
  obtain ⟨y, hy, rfl⟩ := List.mem_map.mp hx
  have := hbound y hy
  omega

theorem sparse_slice_tensors_normalized_witness :
    sparseSliceTensors [3] 5 8 [[5, 6, 7], [0, 1, 2]] [[10, 11, 12], [20, 21, 22]] =
      [⟨[[0, 1, 2], [0, 1, 2]], [10, 11, 12], [3, 3]⟩,
       ⟨[[0, 1, 2], [0, 1, 2]], [20, 21, 22], [3, 3]⟩] ∧
    ∀ t ∈ sparseSliceTensors [3] 5 8 [[5, 6, 7], [0, 1, 2]]
        [[10, 11, 12], [20, 21, 22]],
      t.shape = [3, 3] ∧ ∀ x ∈ t.coords.headD [], x < 3 := by
  have h := sparse_slice_tensors_normalized [3] 5 8 [5, 6, 7] [[0, 1, 2]]
    ([[10, 11, 12], [20, 21, 22]] : List (List ℕ)) (by decide)
  exact ⟨h.1.trans (by decide), h.2⟩

/-- C6 (evaluation of the cited code at the failing input): the loader path of
`PyTorchTileDBDataLoader` (pytorch.py lines 35-73) compares
`shuffle_buffer_size` to `batch_size` nowhere: over a four-row dense array
with `shuffle_buffer_size = 1` — positive and smaller than a batch size of 2 —
construction succeeds, recording the buffer size unchecked, and the first
iteration succeeds as well, yielding every row (`batch_size` does not occur in
the dataset's row pipeline at all; it is only forwarded to the framework's
batching loop). -/
theorem small_buffer_no_validation :
    datasetInit [⟨⟨0, 4⟩, false⟩] 1 =
      Except.ok ⟨[⟨⟨0, 4⟩, false⟩], ⟨0, 4⟩, 1⟩ ∧
    datasetIterDense (fun i => [i]) ⟨0, 4⟩ 2 1 id id = [[0], [1], [2], [3]] :=
  ⟨rfl, by decide⟩

/-! ## Composite collator (`_CompositeCollator.__call__`, pytorch.py lines
125-138) -/

inductive CollateError
  | assertionError
  deriving DecidableEq

/-- Python `zip(*rows)`: transpose a sequence of rows into columns, truncating
at the shortest row; `zip()` with no arguments yields nothing.  The recursion
is fuelled by the first row's length (an upper bound on the shortest row once
the rows are nonempty). -/
def pyZipAux : ℕ → List (List α) → List (List α)
  | 0, _ => []
  | fuel + 1, rows =>
    if !rows.isEmpty && rows.all (fun r => !r.isEmpty) then
      rows.filterMap (fun r => r.head?) :: pyZipAux fuel (rows.map (fun r => r.tail))
    else []

def pyZip (rows : List (List α)) : List (List α) :=
  pyZipAux (rows.headD []).length rows

/-- `_CompositeCollator.__call__(rows)`: transpose the rows into per-field
columns with `zip(*rows)`, assert that the column count equals the collator
count, and apply each field's collator to its column, in field order. -/
def compositeCollate (collators : List (List α → β)) (rows : List (List α)) :
    Except CollateError (List β) :=
  let columns := pyZip rows
  if columns.length = collators.length then
    Except.ok ((collators.zip columns).map (fun p => p.1 p.2))
  else Except.error CollateError.assertionError

/-- C10: the composite collator succeeds — returning one collated batch per
field, in field order — exactly when the transposed column count equals the
collator count; in particular, called with an empty sequence of rows and one
or more collators it fails its internal assertion instead of returning an
empty tuple of batches. -/
theorem composite_collate_column_count (collators : List (List α → β))
    (rows : List (List α)) (c : List α → β) (cs : List (List α → β)) :
    (compositeCollate collators rows =
        Except.ok ((collators.zip (pyZip rows)).map (fun p => p.1 p.2)) ↔
      (pyZip rows).length = collators.length) ∧
    compositeCollate (c :: cs) ([] : List (List α)) =
      Except.error CollateError.assertionError := by
  constructor
  · constructor
    · intro h
      by_contra hne
      simp only [compositeCollate, if_neg hne] at h
      exact Except.noConfusion h
    · intro h
      simp only [compositeCollate, if_pos h]
  · have hz : pyZip ([] : List (List α)) = [] := rfl
    simp [compositeCollate, hz]

/-! ## CSR collators (`_csr_collate` and `_csr_to_coo_collate`, pytorch.py
lines 155-170) -/

/-- A `scipy.sparse.csr_matrix`: row-pointer, column-index and value arrays
plus the 2-D shape. -/
structure CsrMatrix (α : Type u) where
  nrows : ℕ
  ncols : ℕ
  indptr : List ℕ
  indices : List ℕ
  data : List α
  deriving DecidableEq

/-- A `scipy.sparse.coo_matrix`: row, column and value arrays plus shape. -/
structure CooMatrix (α : Type u) where
  nrows : ℕ
  ncols : ℕ
  row : List ℕ
  col : List ℕ
  data : List α
  deriving DecidableEq

/-- A torch tensor with `sparse_csr` layout, as built by
`torch.sparse_csr_tensor(crow_indices, col_indices, values, shape)`. -/
structure TorchSparseCsr (α : Type u) where
  crowIndices : List ℕ
  colIndices : List ℕ
  values : List α
  shape : ℕ × ℕ
  deriving DecidableEq

/-- A torch tensor with `sparse_coo` layout, as built by
`torch.sparse_coo_tensor(np.stack((row, col)), data, shape)`. -/
structure TorchSparseCoo (α : Type u) where
  rowCoords : List ℕ
  colCoords : List ℕ
  values : List α
  shape : ℕ × ℕ
  deriving DecidableEq

/-- `scipy.sparse.vstack` of two CSR matrices with equal column counts: the
second block's row pointers (past the leading 0) are offset by the first
block's nonzero count and appended; column indices and values are
concatenated. -/
def csrVstack2 (a b : CsrMatrix α) : CsrMatrix α :=
  { nrows := a.nrows + b.nrows
    ncols := a.ncols
    indptr := a.indptr ++ (b.indptr.drop 1).map (fun p => p + a.data.length)
    indices := a.indices ++ b.indices
    data := a.data ++ b.data }

/-- `scipy.sparse.vstack` over a nonempty sequence of CSR matrices. -/
def csrVstack (m : CsrMatrix α) (rest : List (CsrMatrix α)) : CsrMatrix α :=
  rest.foldl csrVstack2 m

/-- Expansion of a CSR row-pointer array into the per-nonzero row-index array
(as `scipy.sparse.csr_matrix.tocoo` computes it): row `r`, whose pointers span
from `p` to `q`, contributes `q - p` copies of `r`. -/
def expandRowsAux : ℕ → ℕ → List ℕ → List ℕ
  | _, _, [] => []
  | r, p, q :: ps => List.replicate (q - p) r ++ expandRowsAux (r + 1) q ps

/-- `csr_matrix.tocoo()`: same column indices and values; the row array is the
expansion of the row-pointer array. -/
def CsrMatrix.tocoo (m : CsrMatrix α) : CooMatrix α :=
  { nrows := m.nrows
    ncols := m.ncols
    row := match m.indptr with
      | [] => []
      | p :: ps => expandRowsAux 0 p ps
    col := m.indices
    data := m.data }

/-- `_csr_collate(arrays)`: vertically stack the CSR matrices and wrap the
stacked row-pointer, column-index and value arrays in a torch tensor with
`sparse_csr` layout (`scipy.sparse.vstack` requires a nonempty sequence). -/
def csrCollate (arrays : List (CsrMatrix α)) : Option (TorchSparseCsr α) :=
  match arrays with
  | [] => none
  | m :: rest =>
    let stacked := csrVstack m rest
    some ⟨stacked.indptr, stacked.indices, stacked.data, (stacked.nrows, stacked.ncols)⟩

/-- `_csr_to_coo_collate(arrays)`: vertically stack the CSR matrices, convert
the stacked matrix to COO, and wrap the stacked coordinates and values in a
torch tensor with `sparse_coo` layout. -/
def csrToCooCollate (arrays : List (CsrMatrix α)) : Option (TorchSparseCoo α) :=
  match arrays with
  | [] => none
  | m :: rest =>
    let stacked := (csrVstack m rest).tocoo
    some ⟨stacked.row, stacked.col, stacked.data, (stacked.nrows, stacked.ncols)⟩

/-- The (row, column, value) triples a `sparse_csr` tensor denotes: row `r`,
whose pointers span from `p` to `q`, owns the next `q - p` column-index/value
pairs. -/
def csrEntriesAux : ℕ → ℕ → List ℕ → List ℕ → List α → List (ℕ × ℕ × α)
  | _, _, [], _, _ => []
  | r, p, q :: ps, indices, vals =>
    ((indices.take (q - p)).zip (vals.take (q - p))).map (fun cv => (r, cv.1, cv.2)) ++
      csrEntriesAux (r + 1) q ps (indices.drop (q - p)) (vals.drop (q - p))

def TorchSparseCsr.entries (t : TorchSparseCsr α) : List (ℕ × ℕ × α) :=
  match t.crowIndices with
  | [] => []
  | p :: ps => csrEntriesAux 0 p ps t.colIndices t.values

/-- The (row, column, value) triples a `sparse_coo` tensor denotes. -/
def TorchSparseCoo.entries (t : TorchSparseCoo α) : List (ℕ × ℕ × α) :=
  t.rowCoords.zip (t.colCoords.zip t.values)

theorem zip_append_split {γ : Type u} {δ : Type v} (A : List γ) :
    ∀ (B : List γ) (l : List δ),
      (A ++ B).zip l = A.zip (l.take A.length) ++ B.zip (l.drop A.length) := by
  induction A with
  | nil => intro B l; simp
  | cons a A ih =>
    intro B l
    cases l with
    | nil => simp
    | cons x l =>
      simp only [List.cons_append, List.zip_cons_cons, List.length_cons,
        List.take_succ_cons, List.drop_succ_cons, ih B l]

theorem replicate_zip {γ : Type u} {δ : Type v} (r : γ) :
    ∀ (k : ℕ) (l : List δ),
      (List.replicate k r).zip l = (l.take k).map (fun x => (r, x)) := by
  intro k
  induction k with
  | zero => intro l; simp
  | succ k ih =>
    intro l
    cases l with
    | nil => simp
    | cons x l =>
      simp only [List.replicate_succ, List.zip_cons_cons, List.take_succ_cons,
        List.map_cons, ih l]

theorem zip_take_take {γ : Type u} {δ : Type v} (l : List γ) :
    ∀ (l' : List δ) (k : ℕ), (l.zip l').take k = (l.take k).zip (l'.take k) := by
  induction l with
  | nil => intro l' k; simp
  | cons a l ih =>
    intro l' k
    cases l' with
    | nil => simp
    | cons b l' =>
      cases k with
      | zero => simp
      | succ k =>
        simp only [List.zip_cons_cons, List.take_succ_cons, ih l' k]

theorem zip_drop_drop {γ : Type u} {δ : Type v} (l : List γ) :
    ∀ (l' : List δ) (k : ℕ), (l.zip l').drop k = (l.drop k).zip (l'.drop k) := by
  induction l with
  | nil => intro l' k; simp
  | cons a l ih =>
    intro l' k
    cases l' with
    | nil => simp [List.zip_nil_right]
    | cons b l' =>
      cases k with
      | zero => simp
      | succ k =>
        simp only [List.zip_cons_cons, List.drop_succ_cons, ih l' k]

theorem expandRows_zip_eq_csrEntries (ps : List ℕ) :
    ∀ (r p : ℕ) (indices : List ℕ) (vals : List α),
      indices.length = vals.length →
      (expandRowsAux r p ps).zip (indices.zip vals) = csrEntriesAux r p ps indices vals := by
  induction ps with
  | nil => intro r p indices vals _; rfl
  | cons q ps ih =>
    intro r p indices vals h
    simp only [expandRowsAux, csrEntriesAux]
    rw [zip_append_split, List.length_replicate, replicate_zip, List.take_take,
      min_self, zip_take_take, zip_drop_drop,
      ih (r + 1) q (indices.drop (q - p)) (vals.drop (q - p)) (by simp [h])]

theorem csrVstack_balanced (rest : List (CsrMatrix α)) :
    ∀ (m : CsrMatrix α), m.indices.length = m.data.length →
      (∀ x ∈ rest, x.indices.length = x.data.length) →
      (csrVstack m rest).indices.length = (csrVstack m rest).data.length := by
  induction rest with
  | nil => intro m hm _; exact hm
  | cons b rest ih =>
    intro m hm hall
    simp only [csrVstack, List.foldl_cons] at *
    exact ih (csrVstack2 m b)
      (by simp [csrVstack2, hm, hall b (List.mem_cons_self b rest)])
      (fun x hx => hall x (List.mem_cons_of_mem b hx))

/-- C7: applied to the same nonempty sequence of CSR row tensors, `_csr_collate`
and `_csr_to_coo_collate` produce value-equivalent batch tensors: the same
overall shape and the same list of (row, column, value) entries, differing
only in sparse storage layout (CSR vs COO). -/
theorem csr_collate_equiv_coo_collate (m : CsrMatrix α) (rest : List (CsrMatrix α))
    (hlen : ∀ x ∈ m :: rest, x.indices.length = x.data.length) :
    ∃ (tcsr : TorchSparseCsr α) (tcoo : TorchSparseCoo α),
      csrCollate (m :: rest) = some tcsr ∧
      csrToCooCollate (m :: rest) = some tcoo ∧
      tcsr.shape = tcoo.shape ∧
      tcsr.entries = tcoo.entries := by
  have hstack : (csrVstack m rest).indices.length = (csrVstack m rest).data.length :=
    csrVstack_balanced rest m (hlen m (List.mem_cons_self m rest))
      (fun x hx => hlen x (List.mem_cons_of_mem m hx))
  refine ⟨_, _, rfl, rfl, rfl, ?_⟩
  simp only [TorchSparseCsr.entries, TorchSparseCoo.entries, CsrMatrix.tocoo]
  cases hptr : (csrVstack m rest).indptr with
  | nil => rfl
  | cons p ps => exact (expandRows_zip_eq_csrEntries ps 0 p _ _ hstack).symm

theorem csr_collate_equiv_coo_collate_witness :
    ∃ (tcsr : TorchSparseCsr ℕ) (tcoo : TorchSparseCoo ℕ),
      csrCollate [⟨1, 2, [0, 1], [1], [7]⟩, ⟨1, 2, [0, 1], [0], [9]⟩] = some tcsr ∧
      csrToCooCollate [⟨1, 2, [0, 1], [1], [7]⟩, ⟨1, 2, [0, 1], [0], [9]⟩] = some tcoo ∧
      tcsr.shape = tcoo.shape ∧
      tcsr.entries = tcoo.entries :=
  csr_collate_equiv_coo_collate ⟨1, 2, [0, 1], [1], [7]⟩
    [⟨1, 2, [0, 1], [0], [9]⟩] (by decide)

end TileDBML
